import Mathlib

/-
Verification development for the pyss statechart structural model
(src/pyss/statemachine.py).

The Python module defines a hierarchy registry (class StateMachine) holding
states, transitions, a parent map and a top-level children list, together
with memoized structural queries (ancestors_for, descendants_for, depth_of,
least_common_ancestor, leaf_for) and a dictionary projection (to_dict).

We shallowly embed the module: Python dicts become association lists with
first-match lookup and in-place replacement; Python exceptions become an
Option PyError paired with the post-mutation machine (Python leaves the
mutated object behind when a statement raises); while-loops over the
parent/children maps become fuel-based structural recursions, where the
fuel is large enough that it is never exhausted on a valid registry.
-/

namespace Pyss

/-- Exceptions raised by the Python source: ValueError in Transition's
constructor, KeyError for a missing dict key, AttributeError for a missing
method such as add_child or add_transition on a non-composite state. -/
inductive PyError where
  | valueError
  | keyError
  | attributeError
  deriving DecidableEq

/-- Python dict lookup (first binding wins; association lists built by
dictSet have unique keys, as Python dicts do). dict.get / d[k] both map to
this; a KeyError is modelled at each use site. -/
def dictGet {κ α : Type} [BEq κ] : List (κ × α) → κ → Option α
  | [], _ => none
  | e :: rest, k => if e.1 == k then some e.2 else dictGet rest k

/-- Python dict assignment d[k] = v: replaces the binding in place when the
key exists (an OrderedDict keeps the original position), appends otherwise. -/
def dictSet {κ α : Type} [BEq κ] : List (κ × α) → κ → α → List (κ × α)
  | [], k, v => [(k, v)]
  | e :: rest, k, v => if e.1 == k then (k, v) :: rest else e :: dictSet rest k v

/-- Event: a named signal; the optional data payload is opaque, takes no
part in equality (Python __eq__ compares names only) and is never read by
the embedded operations, so it is not modelled. -/
structure Event where
  name : String
  deriving DecidableEq

/-- Transition between two states (class Transition): from_state is
required, the rest mirror the Python constructor's optional arguments. -/
structure Transition where
  from_state : String
  to_state : Option String
  event : Option Event
  condition : Option String
  action : Option String
  deriving DecidableEq

/-- Transition.__init__: raises ValueError when both to_state and event are
absent, otherwise stores the five fields verbatim (no other validation). -/
def Transition.make (from_state : String) (to_state : Option String)
    (event : Option Event) (condition : Option String) (action : Option String) :
    Except PyError Transition :=
  if to_state = none ∧ event = none then .error .valueError
  else .ok { from_state := from_state, to_state := to_state, event := event,
             condition := condition, action := action }

/-- Transition.internal: true when to_state is absent. -/
def Transition.internal (t : Transition) : Bool := t.to_state.isNone

/-- Transition.eventless: true when event is absent. -/
def Transition.eventless (t : Transition) : Bool := t.event.isNone

/-- The closed set of state classes of the source: BasicState,
CompoundState, OrthogonalState, HistoryState, FinalState. Each constructor
carries exactly the attributes the corresponding Python class initializes
(HistoryState.memory starts as the one-element list holding initial). -/
inductive State where
  | basic (name : String) (transitions : List Transition)
      (on_entry on_exit : Option String)
  | compound (name initial : String) (transitions : List Transition)
      (children : List String) (on_entry on_exit : Option String)
  | orthogonal (name : String) (transitions : List Transition)
      (children : List String) (on_entry on_exit : Option String)
  | history (name : String) (initial : Option String)
      (memory : List (Option String)) (deep : Bool)
  | final (name : String) (on_entry on_exit : Option String)
  deriving DecidableEq

/-- The name attribute shared by every state class. -/
def State.name : State → String
  | .basic n _ _ _ => n
  | .compound n _ _ _ _ _ => n
  | .orthogonal n _ _ _ _ => n
  | .history n _ _ _ => n
  | .final n _ _ => n

/-- getattr(state, children, []): the children list of a composite state,
and the empty list for the classes that lack the attribute. -/
def State.children : State → List String
  | .compound _ _ _ cs _ _ => cs
  | .orthogonal _ _ cs _ _ => cs
  | _ => []

/-- add_child exists only on CompositeStateMixin (compound and orthogonal
states); none models the AttributeError raised on the other classes. -/
def State.add_child : State → String → Option State
  | .compound n i ts cs oe ox, c => some (.compound n i ts (cs ++ [c]) oe ox)
  | .orthogonal n ts cs oe ox, c => some (.orthogonal n ts (cs ++ [c]) oe ox)
  | _, _ => none

/-- add_transition exists only on TransitionStateMixin (basic, compound and
orthogonal states); none models the AttributeError on history and final. -/
def State.add_transition : State → Transition → Option State
  | .basic n ts oe ox, t => some (.basic n (ts ++ [t]) oe ox)
  | .compound n i ts cs oe ox, t => some (.compound n i (ts ++ [t]) cs oe ox)
  | .orthogonal n ts cs oe ox, t => some (.orthogonal n (ts ++ [t]) cs oe ox)
  | _, _ => none

/-- True for the state kinds that own no children attribute at all:
BasicState (the spec's Simple states), FinalState and HistoryState. -/
def State.leaf_kind : State → Bool
  | .basic _ _ _ _ => true
  | .history _ _ _ _ => true
  | .final _ _ _ => true
  | _ => false

/-- The hierarchy registry (class StateMachine): state map, transition
list, parent map (a value of none is Python None, i.e. top-level), and the
ordered top-level children list. -/
structure StateMachine where
  name : String
  initial : String
  execute : Option String
  states : List (String × State)
  transitions : List Transition
  parent : List (String × Option String)
  children : List String
  deriving DecidableEq

/-- StateMachine.register_state(state, parent). The Python code performs,
in order: states[state.name] = state (silently replacing an existing
binding); parent[state.name] = parent (a State argument is normalized to
its name, modelled by taking an Option String directly); then it looks the
recorded parent name up in the updated state map, and either calls
add_child on the found parent state (AttributeError when that state is not
composite, with the two map updates already done) or, when the parent name
is None or unregistered, appends the name to the machine's top-level
children list. -/
def register_state (sm : StateMachine) (st : State) (parent : Option String) :
    Option PyError × StateMachine :=
  let states1 := dictSet sm.states st.name st
  let parent1 := dictSet sm.parent st.name parent
  let sm1 := { sm with states := states1, parent := parent1 }
  match parent with
  | none => (none, { sm1 with children := sm.children ++ [st.name] })
  | some p =>
    match dictGet states1 p with
    | none => (none, { sm1 with children := sm.children ++ [st.name] })
    | some pstate =>
      match pstate.add_child st.name with
      | none => (some .attributeError, sm1)
      | some pstate1 => (none, { sm1 with states := dictSet states1 p pstate1 })

/-- StateMachine.register_transition(transition): appends the transition to
the machine's transition list first, and only then looks up the source
state (KeyError when from_state is unregistered — the transition list has
already grown) and calls add_transition on it (AttributeError when the
source state owns no transition list). -/
def register_transition (sm : StateMachine) (t : Transition) :
    Option PyError × StateMachine :=
  let sm1 := { sm with transitions := sm.transitions ++ [t] }
  match dictGet sm1.states t.from_state with
  | none => (some .keyError, sm1)
  | some st =>
    match st.add_transition t with
    | none => (some .attributeError, sm1)
    | some st1 => (none, { sm1 with states := dictSet sm1.states t.from_state st1 })

/-- self.parent[s] flattened: some p when the map binds s to the name p,
none when s is unbound (Python would raise KeyError; every use below is
guarded by registration/validity hypotheses) or bound to None. -/
def parentOf (sm : StateMachine) (s : String) : Option String :=
  (dictGet sm.parent s).bind id

/-- The while-loop of ancestors_for: follow the parent map while the value
is truthy (neither None nor the empty string), accumulating the names
visited. Fuel-based; on a valid registry the chain is shorter than the
parent map, so the fuel below is never exhausted. -/
def ancGo (sm : StateMachine) : Nat → Option String → List String
  | _, none => []
  | 0, some _ => []
  | n + 1, some p => if p = "" then [] else p :: ancGo sm n (parentOf sm p)

/-- StateMachine.ancestors_for(state): ancestors nearest-first. -/
def ancestors_for (sm : StateMachine) (s : String) : List String :=
  ancGo sm sm.parent.length (parentOf sm s)

/-- StateMachine.depth_of(state): 0 for the root sentinel None, otherwise
one more than the number of ancestors. -/
def depth_of (sm : StateMachine) : Option String → Nat
  | none => 0
  | some s => (ancestors_for sm s).length + 1

/-- self.states[s].children with getattr's default: the empty list when s
is not a composite state or (KeyError in Python) not registered. -/
def childrenOf (sm : StateMachine) (s : String) : List String :=
  match dictGet sm.states s with
  | some st => st.children
  | none => []

/-- The while-loop of descendants_for: a FIFO queue, popping the front,
appending each popped state's children both to the queue and (in the same
order) to the output. Fuel-based: one unit per loop iteration. -/
def descGo (sm : StateMachine) : Nat → List String → List String
  | _, [] => []
  | 0, _ :: _ => []
  | n + 1, s :: rest => childrenOf sm s ++ descGo sm n (rest ++ childrenOf sm s)

/-- StateMachine.descendants_for(state): breadth-first descendants. On a
valid registry the loop runs at most once per registered state plus the
initial seed, so length + 1 units of fuel are never exhausted. -/
def descendants_for (sm : StateMachine) (s : String) : List String :=
  descGo sm (sm.states.length + 1) [s]

/-- True when the BFS of descendants_for drains its queue within the given
fuel (i.e. the Python loop terminates after at most that many iterations). -/
def descDone (sm : StateMachine) : Nat → List String → Bool
  | _, [] => true
  | 0, _ :: _ => false
  | n + 1, s :: rest => descDone sm n (rest ++ childrenOf sm s)

/-- StateMachine.least_common_ancestor(s1, s2): scan ancestors_for(s1)
nearest-first, return the first name present in ancestors_for(s2). -/
def least_common_ancestor (sm : StateMachine) (s1 s2 : String) : Option String :=
  (ancestors_for sm s1).find? (fun a => (ancestors_for sm s2).contains a)

/-- StateMachine.leaf_for(states): keep each name whose descendants are all
absent from the given list, preserving the input order. -/
def leaf_for (sm : StateMachine) (states : List String) : List String :=
  states.filter (fun s => (descendants_for sm s).all (fun d => !(states.contains d)))

/-! ### Validity of a registry

The spec's build-phase invariants (section 3): every state entry has a
nonempty name, matching entries in both maps, duplicate-free children
lists that agree with the parent map in both directions, and a parent
relation forming a forest. Acyclicity is witnessed by a rank function that
strictly decreases from child to parent and is bounded by the size of the
parent map (any finite forest admits one, e.g. the depth). The last clause
records that the descendants BFS drains its queue within its fuel for
every registered seed — automatic for a finite forest, and stated
executably so that validity is decidable on concrete machines. -/

/-- Well-formedness of one binding of the state map. -/
def stateEntryOk (sm : StateMachine) (e : String × State) : Prop :=
  e.1 ≠ "" ∧ (dictGet sm.parent e.1).isSome ∧ e.2.children.Nodup ∧
  (∀ c ∈ e.2.children, parentOf sm c = some e.1) ∧
  descDone sm (sm.states.length + 1) [e.1] = true

/-- Well-formedness of one parent-map value for the key k: a truthy parent
name is itself a registered key of both maps, of strictly smaller rank,
and lists k among its children. -/
def parentValOk (sm : StateMachine) (rank : String → Nat) (k : String) :
    Option String → Prop
  | none => True
  | some q => q = "" ∨
      ((dictGet sm.parent q).isSome ∧ rank q < rank k ∧ k ∈ childrenOf sm q)

/-- Well-formedness of one binding of the parent map: the key is also a
state-map key, its rank is below the map size, and its value is a
well-formed parent pointer. -/
def parentEntryOk (sm : StateMachine) (rank : String → Nat)
    (e : String × Option String) : Prop :=
  (dictGet sm.states e.1).isSome ∧ rank e.1 < sm.parent.length ∧
    parentValOk sm rank e.1 e.2

/-- A valid registry, relative to an acyclicity-witnessing rank. -/
def ValidSM (sm : StateMachine) (rank : String → Nat) : Prop :=
  (∀ e ∈ sm.states, stateEntryOk sm e) ∧ (∀ e ∈ sm.parent, parentEntryOk sm rank e)

instance parentValOk.dec (sm : StateMachine) (rank : String → Nat) (k : String) :
    ∀ v, Decidable (parentValOk sm rank k v)
  | none => isTrue trivial
  | some q => inferInstanceAs (Decidable (q = "" ∨
      ((dictGet sm.parent q).isSome ∧ rank q < rank k ∧ k ∈ childrenOf sm q)))

instance stateEntryOk.dec (sm : StateMachine) (e : String × State) :
    Decidable (stateEntryOk sm e) :=
  inferInstanceAs (Decidable (e.1 ≠ "" ∧ (dictGet sm.parent e.1).isSome ∧
    e.2.children.Nodup ∧ (∀ c ∈ e.2.children, parentOf sm c = some e.1) ∧
    descDone sm (sm.states.length + 1) [e.1] = true))

instance parentEntryOk.dec (sm : StateMachine) (rank : String → Nat)
    (e : String × Option String) : Decidable (parentEntryOk sm rank e) :=
  inferInstanceAs (Decidable ((dictGet sm.states e.1).isSome ∧
    rank e.1 < sm.parent.length ∧ parentValOk sm rank e.1 e.2))

instance ValidSM.dec (sm : StateMachine) (rank : String → Nat) :
    Decidable (ValidSM sm rank) :=
  inferInstanceAs (Decidable ((∀ e ∈ sm.states, stateEntryOk sm e) ∧
    (∀ e ∈ sm.parent, parentEntryOk sm rank e)))

/-! ### Association list and find? helpers -/

theorem dictGet_mem {κ α : Type} [BEq κ] [LawfulBEq κ] {l : List (κ × α)} {k : κ}
    {v : α} (h : dictGet l k = some v) : (k, v) ∈ l := by
  induction l with
  | nil => simp [dictGet] at h
  | cons e rest ih =>
    by_cases hk : e.1 == k
    · have hk1 : e.1 = k := eq_of_beq hk
      rw [dictGet, if_pos hk] at h
      have hv : e.2 = v := by injection h
      have : e = (k, v) := by cases e; simp_all
      rw [this] at *
      exact List.mem_cons_self _ _
    · rw [dictGet, if_neg hk] at h
      exact List.mem_cons_of_mem _ (ih h)

theorem dictGet_isSome_mem {κ α : Type} [BEq κ] [LawfulBEq κ] {l : List (κ × α)}
    {k : κ} (h : (dictGet l k).isSome) : ∃ v, (k, v) ∈ l ∧ dictGet l k = some v := by
  obtain ⟨v, hv⟩ := Option.isSome_iff_exists.mp h
  exact ⟨v, dictGet_mem hv, hv⟩

theorem parentOf_eq_some {sm : StateMachine} {s p : String}
    (h : parentOf sm s = some p) : dictGet sm.parent s = some (some p) := by
  unfold parentOf at h
  obtain ⟨a, ha, hfa⟩ := Option.bind_eq_some.mp h
  simp only [id] at hfa
  rw [ha, hfa]

theorem parentOf_mem {sm : StateMachine} {s p : String}
    (h : parentOf sm s = some p) : (s, some p) ∈ sm.parent :=
  dictGet_mem (parentOf_eq_some h)

/-- First-match characterization of find?. -/
theorem find?_first {α : Type} {p : α → Bool} :
    ∀ {l : List α} {a : α}, l.find? p = some a →
      ∃ t u, l = t ++ a :: u ∧ (∀ b ∈ t, p b = false) ∧ p a = true := by
  intro l
  induction l with
  | nil => intro a h; simp at h
  | cons x xs ih =>
    intro a h
    cases hp : p x with
    | true =>
      rw [List.find?_cons_of_pos _ hp] at h
      obtain rfl : x = a := by injection h
      exact ⟨[], xs, rfl, by simp, hp⟩
    | false =>
      rw [List.find?_cons_of_neg _ (by simp [hp])] at h
      obtain ⟨t, u, heq, ht, ha⟩ := ih h
      exact ⟨x :: t, u, by simp [heq], by
        intro b hb
        rcases List.mem_cons.mp hb with rfl | hb
        · exact hp
        · exact ht b hb, ha⟩

theorem contains_iff_mem {l : List String} {a : String} :
    l.contains a = true ↔ a ∈ l := by
  simp [List.contains]

/-! ### Ancestor chain lemmas (valid registries) -/

theorem ancGo_none (sm : StateMachine) : ∀ n, ancGo sm n none = [] := by
  intro n; cases n <;> rfl

theorem ancGo_empty (sm : StateMachine) : ∀ n, ancGo sm n (some "") = [] := by
  intro n; cases n <;> simp [ancGo]

theorem descGo_nil (sm : StateMachine) : ∀ n, descGo sm n [] = [] := by
  intro n; cases n <;> rfl

/-- Fuel-independence of the ancestors loop: as soon as the fuel exceeds
the rank of the chain's head, the result no longer depends on the fuel. -/
theorem ancGo_stable {sm : StateMachine} {rank : String → Nat}
    (h : ValidSM sm rank) :
    ∀ r p n m, rank p < r → (dictGet sm.parent p).isSome → p ≠ "" →
      rank p < n → rank p < m → ancGo sm n (some p) = ancGo sm m (some p) := by
  intro r
  induction r with
  | zero => intro p n m hr; omega
  | succ r ih =>
    intro p n m hr hkey hne hn hm
    obtain ⟨n', rfl⟩ : ∃ n', n = n' + 1 := ⟨n - 1, by omega⟩
    obtain ⟨m', rfl⟩ : ∃ m', m = m' + 1 := ⟨m - 1, by omega⟩
    simp only [ancGo, if_neg hne]
    cases hq : parentOf sm p with
    | none => rw [ancGo_none, ancGo_none]
    | some q =>
      by_cases hq0 : q = ""
      · subst hq0; rw [ancGo_empty, ancGo_empty]
      · have hmem := parentOf_mem hq
        have hok := h.2 _ hmem
        have hqkey : (dictGet sm.parent q).isSome := (hok.2.2.resolve_left hq0).1
        have hqrank : rank q < rank p := (hok.2.2.resolve_left hq0).2.1
        have : ancGo sm n' (some q) = ancGo sm m' (some q) :=
          ih q n' m' (by omega) hqkey hq0 (by omega) (by omega)
        rw [this]

/-- The defining recursion of ancestors_for on a valid registry: the list
starts with the parent and continues with the parent's own ancestors. -/
theorem anc_cons {sm : StateMachine} {rank : String → Nat} (h : ValidSM sm rank)
    {s p : String} (hp : parentOf sm s = some p) (hne : p ≠ "") :
    ancestors_for sm s = p :: ancestors_for sm p := by
  have hmem := parentOf_mem hp
  have hok := h.2 _ hmem
  have hpkey : (dictGet sm.parent p).isSome := (hok.2.2.resolve_left hne).1
  obtain ⟨v, hvmem, hv⟩ := dictGet_isSome_mem hpkey
  have hpbound : rank p < sm.parent.length := (h.2 _ hvmem).2.1
  obtain ⟨L, hL⟩ : ∃ L, sm.parent.length = L + 1 :=
    ⟨sm.parent.length - 1, by omega⟩
  unfold ancestors_for
  rw [hp, hL]
  simp only [ancGo, if_neg hne]
  congr 1
  cases hq : parentOf sm p with
  | none => rw [ancGo_none, ancGo_none]
  | some q =>
    by_cases hq0 : q = ""
    · subst hq0; rw [ancGo_empty, ancGo_empty]
    · have hqmem := parentOf_mem hq
      have hqok := h.2 _ hqmem
      have hqkey : (dictGet sm.parent q).isSome := (hqok.2.2.resolve_left hq0).1
      have hqrank : rank q < rank p := (hqok.2.2.resolve_left hq0).2.1
      exact ancGo_stable h (rank q + 1) q L (L + 1) (by omega) hqkey hq0
        (by omega) (by omega)

theorem anc_of_parent_none {sm : StateMachine} {s : String}
    (hp : parentOf sm s = none) : ancestors_for sm s = [] := by
  unfold ancestors_for; rw [hp, ancGo_none]

theorem anc_of_parent_empty {sm : StateMachine} {s : String}
    (hp : parentOf sm s = some "") : ancestors_for sm s = [] := by
  unfold ancestors_for; rw [hp, ancGo_empty]

/-- Case analysis for membership in an ancestor list. -/
theorem anc_mem_cases {sm : StateMachine} {rank : String → Nat}
    (h : ValidSM sm rank) {s a : String} (ha : a ∈ ancestors_for sm s) :
    ∃ p, parentOf sm s = some p ∧ p ≠ "" ∧
      ancestors_for sm s = p :: ancestors_for sm p ∧
      (a = p ∨ a ∈ ancestors_for sm p) := by
  cases hp : parentOf sm s with
  | none => rw [anc_of_parent_none hp] at ha; simp at ha
  | some p =>
    by_cases hp0 : p = ""
    · subst hp0; rw [anc_of_parent_empty hp] at ha; simp at ha
    · have hc := anc_cons h hp hp0
      rw [hc] at ha
      exact ⟨p, rfl, hp0, hc, List.mem_cons.mp ha⟩

/-- rank strictly decreases from a state to any of its ancestors. -/
theorem anc_rank_lt {sm : StateMachine} {rank : String → Nat}
    (h : ValidSM sm rank) {s a : String} (ha : a ∈ ancestors_for sm s) :
    rank a < rank s := by
  obtain ⟨p, hp, hp0, _, hcase⟩ := anc_mem_cases h ha
  have hps : rank p < rank s := ((h.2 _ (parentOf_mem hp)).2.2.resolve_left hp0).2.1
  rcases hcase with rfl | hmem
  · exact hps
  · -- strong induction on rank p
    clear hp
    have : ∀ r p, rank p < r → a ∈ ancestors_for sm p → rank a ≤ rank p := by
      intro r
      induction r with
      | zero => intro p hr; omega
      | succ r ih =>
        intro p hr hmem
        obtain ⟨q, hq, hq0, _, hcase⟩ := anc_mem_cases h hmem
        have hqp : rank q < rank p :=
          ((h.2 _ (parentOf_mem hq)).2.2.resolve_left hq0).2.1
        rcases hcase with rfl | hmem2
        · omega
        · have := ih q (by omega) hmem2; omega
    have := this (rank p + 1) p (by omega) hmem
    omega

/-- The ancestors of an ancestor form a suffix of the ancestor list. -/
theorem anc_suffix {sm : StateMachine} {rank : String → Nat}
    (h : ValidSM sm rank) {s a : String} (ha : a ∈ ancestors_for sm s) :
    ∃ t, ancestors_for sm s = t ++ a :: ancestors_for sm a := by
  have main : ∀ r s, rank s < r → a ∈ ancestors_for sm s →
      ∃ t, ancestors_for sm s = t ++ a :: ancestors_for sm a := by
    intro r
    induction r with
    | zero => intro s hr; omega
    | succ r ih =>
      intro s hr hmem
      obtain ⟨p, hp, hp0, hc, hcase⟩ := anc_mem_cases h hmem
      rcases hcase with rfl | hmem2
      · exact ⟨[], by simpa using hc⟩
      · have hps : rank p < rank s :=
          ((h.2 _ (parentOf_mem hp)).2.2.resolve_left hp0).2.1
        obtain ⟨t, ht⟩ := ih p (by omega) hmem2
        exact ⟨p :: t, by rw [hc, ht]; rfl⟩
  exact main (rank s + 1) s (by omega) ha

/-- Ancestors of ancestors are ancestors (transitivity of the chain). -/
theorem anc_trans {sm : StateMachine} {rank : String → Nat}
    (h : ValidSM sm rank) {x y z : String} (hx : x ∈ ancestors_for sm y)
    (hz : z ∈ ancestors_for sm x) : z ∈ ancestors_for sm y := by
  obtain ⟨t, ht⟩ := anc_suffix h hx
  rw [ht]
  exact List.mem_append_right _ (List.mem_cons_of_mem _ hz)

/-- A strict ancestor has a strictly shorter ancestor list. -/
theorem anc_length_lt {sm : StateMachine} {rank : String → Nat}
    (h : ValidSM sm rank) {s a : String} (ha : a ∈ ancestors_for sm s) :
    (ancestors_for sm a).length < (ancestors_for sm s).length := by
  obtain ⟨t, ht⟩ := anc_suffix h ha
  rw [ht]; simp; omega

/-- No state is its own ancestor. -/
theorem anc_irrefl {sm : StateMachine} {rank : String → Nat}
    (h : ValidSM sm rank) {s : String} : s ∉ ancestors_for sm s := by
  intro hmem
  exact absurd (anc_length_lt h hmem) (lt_irrefl _)

/-- The ancestor list is strictly decreasing in depth: any later element
is an ancestor of, hence strictly shallower than, any earlier one. -/
theorem anc_pairwise {sm : StateMachine} {rank : String → Nat}
    (h : ValidSM sm rank) (s : String) :
    List.Pairwise
      (fun a b => (ancestors_for sm b).length < (ancestors_for sm a).length)
      (ancestors_for sm s) := by
  have main : ∀ r s, rank s < r →
      List.Pairwise
        (fun a b => (ancestors_for sm b).length < (ancestors_for sm a).length)
        (ancestors_for sm s) := by
    intro r
    induction r with
    | zero => intro s hr; omega
    | succ r ih =>
      intro s hr
      cases hp : parentOf sm s with
      | none => rw [anc_of_parent_none hp]; exact List.Pairwise.nil
      | some p =>
        by_cases hp0 : p = ""
        · subst hp0; rw [anc_of_parent_empty hp]; exact List.Pairwise.nil
        · rw [anc_cons h hp hp0]
          have hps : rank p < rank s :=
            ((h.2 _ (parentOf_mem hp)).2.2.resolve_left hp0).2.1
          exact List.Pairwise.cons
            (fun b hb => anc_length_lt h hb) (ih p (by omega))
  exact main (rank s + 1) s (by omega)

/-- Two members of one ancestor list with equal depths are equal. -/
theorem pairwise_len_unique {f : String → Nat} :
    ∀ {l : List String}, List.Pairwise (fun a b => f b < f a) l →
      ∀ {x y}, x ∈ l → y ∈ l → f x = f y → x = y := by
  intro l
  induction l with
  | nil => intro _ x y hx; simp at hx
  | cons c cs ih =>
    intro hpw x y hx hy hf
    have hhead : ∀ b ∈ cs, f b < f c := (List.pairwise_cons.mp hpw).1
    have htail := (List.pairwise_cons.mp hpw).2
    rcases List.mem_cons.mp hx with hx1 | hx1
    · rcases List.mem_cons.mp hy with hy1 | hy1
      · rw [hx1, hy1]
      · subst hx1
        exact ((by have h1 := hhead y hy1; omega : False)).elim
    · rcases List.mem_cons.mp hy with hy1 | hy1
      · subst hy1
        exact ((by have h1 := hhead x hx1; omega : False)).elim
      · exact ih htail hx1 hy1 hf

/-! ### Descendant (BFS) lemmas -/

/-- On a valid registry, being listed among a state's children pins down
the child's parent pointer, so the child's ancestor chain starts there. -/
theorem child_anc {sm : StateMachine} {rank : String → Nat} (h : ValidSM sm rank)
    {x c : String} (hc : c ∈ childrenOf sm x) :
    ancestors_for sm c = x :: ancestors_for sm x := by
  unfold childrenOf at hc
  cases hst : dictGet sm.states x with
  | none => rw [hst] at hc; simp at hc
  | some st =>
    rw [hst] at hc
    have hmem : (x, st) ∈ sm.states := dictGet_mem hst
    have hok := h.1 _ hmem
    have hxne : x ≠ "" := hok.1
    have hpar : parentOf sm c = some x := hok.2.2.2.1 c hc
    exact anc_cons h hpar hxne

theorem childrenOf_nodup {sm : StateMachine} {rank : String → Nat}
    (h : ValidSM sm rank) (x : String) : (childrenOf sm x).Nodup := by
  unfold childrenOf
  cases hst : dictGet sm.states x with
  | none => simp
  | some st => exact (h.1 _ (dictGet_mem hst)).2.2.1

/-- Everything the BFS emits lies strictly below the queue: if every queue
element has depth at least k, every emitted element has depth above k. -/
theorem descGo_lower {sm : StateMachine} {rank : String → Nat}
    (h : ValidSM sm rank) :
    ∀ (n : Nat) (q : List String) (k : Nat),
      (∀ x ∈ q, k ≤ (ancestors_for sm x).length) →
      ∀ {y : String}, y ∈ descGo sm n q → k + 1 ≤ (ancestors_for sm y).length := by
  intro n
  induction n with
  | zero =>
    intro q k hq y hy
    cases q with
    | nil => simp [descGo] at hy
    | cons s rest => simp [descGo] at hy
  | succ n ih =>
    intro q k hq y hy
    cases q with
    | nil => simp [descGo] at hy
    | cons s rest =>
      rw [descGo] at hy
      have hcsdep : ∀ c ∈ childrenOf sm s,
          (ancestors_for sm c).length = (ancestors_for sm s).length + 1 := by
        intro c hc; rw [child_anc h hc]; simp
      have hks : k ≤ (ancestors_for sm s).length := hq s (List.mem_cons_self _ _)
      rcases List.mem_append.mp hy with hy1 | hy1
      · rw [hcsdep y hy1]; omega
      · refine ih _ k ?_ hy1
        intro x hx
        rcases List.mem_append.mp hx with hx1 | hx1
        · exact hq x (List.mem_cons_of_mem _ hx1)
        · rw [hcsdep x hx1]; omega

/-- Soundness of the BFS: every emitted name is a strict descendant of
some queue element (its ancestor chain passes through the queue). -/
theorem descGo_sound {sm : StateMachine} {rank : String → Nat}
    (h : ValidSM sm rank) :
    ∀ (n : Nat) (q : List String) {y : String},
      y ∈ descGo sm n q → ∃ x ∈ q, x ∈ ancestors_for sm y := by
  intro n
  induction n with
  | zero =>
    intro q y hy
    cases q with
    | nil => simp [descGo] at hy
    | cons s rest => simp [descGo] at hy
  | succ n ih =>
    intro q y hy
    cases q with
    | nil => simp [descGo] at hy
    | cons s rest =>
      rw [descGo] at hy
      rcases List.mem_append.mp hy with hy1 | hy1
      · refine ⟨s, List.mem_cons_self _ _, ?_⟩
        rw [child_anc h hy1]
        exact List.mem_cons_self _ _
      · obtain ⟨x, hx, hxy⟩ := ih _ hy1
        rcases List.mem_append.mp hx with hx1 | hx1
        · exact ⟨x, List.mem_cons_of_mem _ hx1, hxy⟩
        · refine ⟨s, List.mem_cons_self _ _, ?_⟩
          have hs : s ∈ ancestors_for sm x := by
            rw [child_anc h hx1]; exact List.mem_cons_self _ _
          exact anc_trans h hxy hs

/-- The BFS output is sorted by depth, given the standard queue invariants
(non-decreasing depths, spanning at most two consecutive levels). -/
theorem descGo_sorted {sm : StateMachine} {rank : String → Nat}
    (h : ValidSM sm rank) :
    ∀ (n : Nat) (q : List String),
      List.Pairwise (fun a b =>
        (ancestors_for sm a).length ≤ (ancestors_for sm b).length) q →
      List.Pairwise (fun a b =>
        (ancestors_for sm b).length ≤ (ancestors_for sm a).length + 1) q →
      List.Pairwise (fun a b =>
        (ancestors_for sm a).length ≤ (ancestors_for sm b).length)
        (descGo sm n q) := by
  intro n
  induction n with
  | zero =>
    intro q _ _
    cases q with
    | nil => exact List.Pairwise.nil
    | cons s rest => exact List.Pairwise.nil
  | succ n ih =>
    intro q h1 h2
    cases q with
    | nil => exact List.Pairwise.nil
    | cons s rest =>
      rw [descGo]
      have hcsdep : ∀ c ∈ childrenOf sm s,
          (ancestors_for sm c).length = (ancestors_for sm s).length + 1 := by
        intro c hc; rw [child_anc h hc]; simp
      have h1head : ∀ b ∈ rest,
          (ancestors_for sm s).length ≤ (ancestors_for sm b).length :=
        (List.pairwise_cons.mp h1).1
      have h1tail := (List.pairwise_cons.mp h1).2
      have h2head : ∀ b ∈ rest,
          (ancestors_for sm b).length ≤ (ancestors_for sm s).length + 1 :=
        (List.pairwise_cons.mp h2).1
      have h2tail := (List.pairwise_cons.mp h2).2
      have hcs1 : List.Pairwise (fun a b =>
          (ancestors_for sm a).length ≤ (ancestors_for sm b).length)
          (childrenOf sm s) := by
        apply List.Pairwise.imp_of_mem (fun {a b} ha hb _ => by
          rw [hcsdep a ha, hcsdep b hb])
        exact List.pairwise_of_forall_mem_list (fun a _ b _ => trivial)
      have hq1 : List.Pairwise (fun a b =>
          (ancestors_for sm a).length ≤ (ancestors_for sm b).length)
          (rest ++ childrenOf sm s) := by
        rw [List.pairwise_append]
        refine ⟨h1tail, hcs1, ?_⟩
        intro a ha b hb
        rw [hcsdep b hb]
        exact h2head a ha
      have hq2 : List.Pairwise (fun a b =>
          (ancestors_for sm b).length ≤ (ancestors_for sm a).length + 1)
          (rest ++ childrenOf sm s) := by
        rw [List.pairwise_append]
        refine ⟨h2tail, ?_, ?_⟩
        · apply List.Pairwise.imp_of_mem (fun {a b} ha hb _ => by
            rw [hcsdep a ha, hcsdep b hb]; omega)
          exact List.pairwise_of_forall_mem_list (fun a _ b _ => trivial)
        · intro a ha b hb
          rw [hcsdep b hb]
          have := h1head a ha
          omega
      rw [List.pairwise_append]
      refine ⟨hcs1, ih _ hq1 hq2, ?_⟩
      intro a ha b hb
      have hblow : (ancestors_for sm s).length + 1 ≤ (ancestors_for sm b).length := by
        refine descGo_lower h _ _ _ ?_ hb
        intro x hx
        rcases List.mem_append.mp hx with hx1 | hx1
        · exact h1head x hx1
        · rw [hcsdep x hx1]; omega
      rw [hcsdep a ha]
      omega

/-- The BFS emits no duplicates, starting from a duplicate-free queue of
pairwise ancestry-incomparable states. -/
theorem descGo_nodup {sm : StateMachine} {rank : String → Nat}
    (h : ValidSM sm rank) :
    ∀ (n : Nat) (q : List String), q.Nodup →
      (∀ a ∈ q, ∀ b ∈ q, a ∉ ancestors_for sm b) →
      (descGo sm n q).Nodup := by
  intro n
  induction n with
  | zero =>
    intro q _ _
    cases q with
    | nil => simp [descGo]
    | cons s rest => simp [descGo]
  | succ n ih =>
    intro q hnd hinc
    cases q with
    | nil => simp [descGo]
    | cons s rest =>
      rw [descGo]
      have hsrest : s ∉ rest := (List.nodup_cons.mp hnd).1
      have hndrest : rest.Nodup := (List.nodup_cons.mp hnd).2
      have hcsnd : (childrenOf sm s).Nodup := childrenOf_nodup h s
      have hs_not_child : s ∉ childrenOf sm s := by
        intro hmem
        have := child_anc h hmem
        have hlen := congrArg List.length this
        simp at hlen
      -- the new queue satisfies both invariants
      have hnd2 : (rest ++ childrenOf sm s).Nodup := by
        rw [List.nodup_append]
        refine ⟨hndrest, hcsnd, ?_⟩
        intro a ha hb
        have hsanc : s ∈ ancestors_for sm a := by
          rw [child_anc h hb]; exact List.mem_cons_self _ _
        exact hinc s (List.mem_cons_self _ _) a (List.mem_cons_of_mem _ ha) hsanc
      have hinc2 : ∀ a ∈ rest ++ childrenOf sm s, ∀ b ∈ rest ++ childrenOf sm s,
          a ∉ ancestors_for sm b := by
        intro a ha b hb hab
        rcases List.mem_append.mp ha with ha1 | ha1 <;>
          rcases List.mem_append.mp hb with hb1 | hb1
        · exact hinc a (List.mem_cons_of_mem _ ha1) b (List.mem_cons_of_mem _ hb1) hab
        · rw [child_anc h hb1] at hab
          rcases List.mem_cons.mp hab with rfl | hab2
          · exact hsrest ha1
          · exact hinc a (List.mem_cons_of_mem _ ha1) s (List.mem_cons_self _ _) hab2
        · have hsa : s ∈ ancestors_for sm a := by
            rw [child_anc h ha1]; exact List.mem_cons_self _ _
          have : s ∈ ancestors_for sm b := anc_trans h hab hsa
          exact hinc s (List.mem_cons_self _ _) b (List.mem_cons_of_mem _ hb1) this
        · rw [child_anc h hb1] at hab
          have hsa : s ∈ ancestors_for sm a := by
            rw [child_anc h ha1]; exact List.mem_cons_self _ _
          rcases List.mem_cons.mp hab with ha2 | ha2
          · subst ha2; exact hs_not_child ha1
          · have haa : a ∈ ancestors_for sm a := anc_trans h hsa ha2
            exact anc_irrefl h haa
      rw [List.nodup_append]
      refine ⟨hcsnd, ih _ hnd2 hinc2, ?_⟩
      intro c hc hcdesc
      obtain ⟨x, hx, hxc⟩ := descGo_sound h _ _ hcdesc
      rw [child_anc h hc] at hxc
      rcases List.mem_cons.mp hxc with rfl | hxc2
      · rcases List.mem_append.mp hx with hx1 | hx1
        · exact hsrest hx1
        · exact hs_not_child hx1
      · rcases List.mem_append.mp hx with hx1 | hx1
        · exact hinc x (List.mem_cons_of_mem _ hx1) s (List.mem_cons_self _ _) hxc2
        · have hsx : s ∈ ancestors_for sm x := by
            rw [child_anc h hx1]; exact List.mem_cons_self _ _
          have : x ∈ ancestors_for sm x := anc_trans h hsx hxc2
          exact anc_irrefl h this

/-- When the BFS drains its queue, everything enqueued is processed: each
child of a queue element appears in the output. -/
theorem descGo_complete_step {sm : StateMachine} :
    ∀ (n : Nat) (q : List String) {x c : String},
      descDone sm n q = true → x ∈ q → c ∈ childrenOf sm x →
      c ∈ descGo sm n q := by
  intro n
  induction n with
  | zero =>
    intro q x c hdone hx
    cases q with
    | nil => simp at hx
    | cons s rest => simp [descDone] at hdone
  | succ n ih =>
    intro q x c hdone hx hc
    cases q with
    | nil => simp at hx
    | cons s rest =>
      rw [descDone] at hdone
      rw [descGo]
      rcases List.mem_cons.mp hx with rfl | hx1
      · exact List.mem_append_left _ hc
      · exact List.mem_append_right _ (ih _ hdone (List.mem_append_left _ hx1) hc)

/-- When the BFS drains its queue, its output is closed under children. -/
theorem descGo_closed {sm : StateMachine} :
    ∀ (n : Nat) (q : List String) {y c : String},
      descDone sm n q = true → y ∈ descGo sm n q → c ∈ childrenOf sm y →
      c ∈ descGo sm n q := by
  intro n
  induction n with
  | zero =>
    intro q y c hdone hy
    cases q with
    | nil => simp [descGo] at hy
    | cons s rest => simp [descDone] at hdone
  | succ n ih =>
    intro q y c hdone hy hc
    cases q with
    | nil => simp [descGo] at hy
    | cons s rest =>
      rw [descDone] at hdone
      rw [descGo] at hy ⊢
      rcases List.mem_append.mp hy with hy1 | hy1
      · exact List.mem_append_right _
          (descGo_complete_step _ _ hdone (List.mem_append_right _ hy1) hc)
      · exact List.mem_append_right _ (ih _ hdone hy1 hc)

/-- Completeness of descendants_for: on a valid registry, every strict
descendant of a registered state is emitted by the BFS. -/
theorem desc_complete {sm : StateMachine} {rank : String → Nat}
    (h : ValidSM sm rank) {s : String} (hs : (dictGet sm.states s).isSome)
    {d : String} (hd : s ∈ ancestors_for sm d) : d ∈ descendants_for sm s := by
  obtain ⟨st, hstmem, hst⟩ := dictGet_isSome_mem hs
  have hdone : descDone sm (sm.states.length + 1) [s] = true :=
    (h.1 _ hstmem).2.2.2.2
  have main : ∀ r d, rank d < r → s ∈ ancestors_for sm d →
      d ∈ descendants_for sm s := by
    intro r
    induction r with
    | zero => intro d hr; omega
    | succ r ih =>
      intro d hr hmem
      obtain ⟨p, hp, hp0, hc, hcase⟩ := anc_mem_cases h hmem
      have hpok := h.2 _ (parentOf_mem hp)
      have hpkey : (dictGet sm.parent p).isSome := (hpok.2.2.resolve_left hp0).1
      have hprank : rank p < rank d := (hpok.2.2.resolve_left hp0).2.1
      have hchild : d ∈ childrenOf sm p := (hpok.2.2.resolve_left hp0).2.2
      rcases hcase with rfl | hmem2
      · exact descGo_complete_step _ _ hdone (List.mem_cons_self _ _) hchild
      · have hpdesc : p ∈ descendants_for sm s := ih p (by omega) hmem2
        exact descGo_closed _ _ hdone hpdesc hchild
  exact main (rank d + 1) d (by omega) hd

/-! ### Least common ancestor lemmas -/

/-- A some-result of least_common_ancestor is a common ancestor of maximal
depth (it is the first hit in a list sorted deepest-first). -/
theorem lca_some_spec {sm : StateMachine} {rank : String → Nat}
    (h : ValidSM sm rank) {s1 s2 x : String}
    (hx : least_common_ancestor sm s1 s2 = some x) :
    x ∈ ancestors_for sm s1 ∧ x ∈ ancestors_for sm s2 ∧
      ∀ y, y ∈ ancestors_for sm s1 → y ∈ ancestors_for sm s2 →
        (ancestors_for sm y).length ≤ (ancestors_for sm x).length := by
  obtain ⟨t, u, heq, ht, hxp⟩ := find?_first hx
  have hx2 : x ∈ ancestors_for sm s2 := contains_iff_mem.mp hxp
  have hx1 : x ∈ ancestors_for sm s1 := by rw [heq]; simp
  refine ⟨hx1, hx2, ?_⟩
  intro y hy1 hy2
  have hpw := anc_pairwise h s1
  rw [heq] at hpw hy1
  rcases List.mem_append.mp hy1 with hyt | hyx
  · exact absurd (contains_iff_mem.mpr hy2)
      (by rw [ht y hyt]; simp)
  · rcases List.mem_cons.mp hyx with rfl | hyu
    · exact le_refl _
    · have := ((List.pairwise_append.mp hpw).2.1)
      have hlt : (ancestors_for sm y).length < (ancestors_for sm x).length :=
        (List.pairwise_cons.mp this).1 y hyu
      omega

/-- A none-result means the two ancestor lists are disjoint. -/
theorem lca_none_iff {sm : StateMachine} {s1 s2 : String} :
    least_common_ancestor sm s1 s2 = none ↔
      ∀ y ∈ ancestors_for sm s1, y ∉ ancestors_for sm s2 := by
  unfold least_common_ancestor
  rw [List.find?_eq_none]
  constructor
  · intro hnone y hy hy2
    exact hnone y hy (contains_iff_mem.mpr hy2)
  · intro hdisj y hy hcont
    exact hdisj y hy (contains_iff_mem.mp hcont)

/-! ### Claim theorems C1 to C5 -/

/-- C1: on a valid registry, least_common_ancestor(s1, s2) returns the
first name in ancestors_for(s1), scanned nearest ancestor first, that also
occurs in ancestors_for(s2); that name is a common ancestor of maximal
depth (the deepest state that is an ancestor of both); and the result is
none exactly when the two states share no named ancestor. -/
theorem lca_correct (sm : StateMachine) (rank : String → Nat)
    (h : ValidSM sm rank) (s1 s2 : String) :
    (∀ x, least_common_ancestor sm s1 s2 = some x →
      x ∈ ancestors_for sm s1 ∧ x ∈ ancestors_for sm s2 ∧
      (∃ t u, ancestors_for sm s1 = t ++ x :: u ∧
        ∀ b ∈ t, b ∉ ancestors_for sm s2) ∧
      (∀ y, y ∈ ancestors_for sm s1 → y ∈ ancestors_for sm s2 →
        depth_of sm (some y) ≤ depth_of sm (some x))) ∧
    (least_common_ancestor sm s1 s2 = none ↔
      ∀ y ∈ ancestors_for sm s1, y ∉ ancestors_for sm s2) := by
  constructor
  · intro x hx
    obtain ⟨h1, h2, hmax⟩ := lca_some_spec h hx
    obtain ⟨t, u, heq, ht, _⟩ := find?_first hx
    refine ⟨h1, h2, ⟨t, u, heq, ?_⟩, ?_⟩
    · intro b hb hb2
      exact absurd (contains_iff_mem.mpr hb2) (by rw [ht b hb]; simp)
    · intro y hy1 hy2
      have := hmax y hy1 hy2
      simp only [depth_of]
      omega
  · exact lca_none_iff

/-- C2: depth_of returns 0 for the root sentinel (the absence of a state)
and 1 + length(ancestors_for(state)) otherwise, so a state at depth d has
exactly d - 1 ancestors. -/
theorem depth_of_correct (sm : StateMachine) :
    depth_of sm none = 0 ∧
    ∀ s : String, depth_of sm (some s) = (ancestors_for sm s).length + 1 ∧
      (ancestors_for sm s).length = depth_of sm (some s) - 1 := by
  refine ⟨rfl, fun s => ⟨rfl, ?_⟩⟩
  simp [depth_of]

/-- C3: on a valid registry, descendants_for(s) for a registered state s
enumerates exactly the strict descendants of s (the states whose ancestor
chain passes through s), in breadth-first order, hence sorted by
non-decreasing depth; it contains no duplicates, never contains s itself,
and is empty for the state kinds with no children attribute (Simple/basic,
Final, History). -/
theorem descendants_for_correct (sm : StateMachine) (rank : String → Nat)
    (h : ValidSM sm rank) (s : String) (hs : (dictGet sm.states s).isSome) :
    (∀ d, d ∈ descendants_for sm s ↔ s ∈ ancestors_for sm d) ∧
    List.Pairwise (fun a b => depth_of sm (some a) ≤ depth_of sm (some b))
      (descendants_for sm s) ∧
    (descendants_for sm s).Nodup ∧
    s ∉ descendants_for sm s ∧
    (∀ st, dictGet sm.states s = some st → st.leaf_kind = true →
      descendants_for sm s = []) := by
  refine ⟨?_, ?_, ?_, ?_, ?_⟩
  · intro d
    constructor
    · intro hd
      obtain ⟨x, hx, hxd⟩ := descGo_sound h _ _ hd
      rcases List.mem_cons.mp hx with rfl | hx1
      · exact hxd
      · simp at hx1
    · exact desc_complete h hs
  · have := descGo_sorted h (sm.states.length + 1) [s]
      (List.pairwise_singleton _ _) (List.pairwise_singleton _ _)
    unfold descendants_for
    refine List.Pairwise.imp ?_ this
    intro a b hab
    simp only [depth_of]
    omega
  · exact descGo_nodup h _ _ (List.nodup_singleton _)
      (by
        intro a ha b hb hab
        rcases List.mem_singleton.mp ha with rfl
        rcases List.mem_singleton.mp hb with rfl
        exact anc_irrefl h hab)
  · intro hmem
    obtain ⟨x, hx, hxs⟩ := descGo_sound h _ _ hmem
    rcases List.mem_singleton.mp hx with rfl
    exact anc_irrefl h hxs
  · intro st hst hleaf
    have hch : childrenOf sm s = [] := by
      unfold childrenOf
      rw [hst]
      cases st <;> simp_all [State.leaf_kind, State.children]
    unfold descendants_for
    rw [descGo, hch]
    simpa using descGo_nil sm _

/-- C4: leaf_for(states) returns exactly the members of the list that have
no descendant (per descendants_for) also present in the list, and it is
idempotent. -/
theorem leaf_for_correct (sm : StateMachine) (xs : List String) :
    (∀ s, s ∈ leaf_for sm xs ↔
      s ∈ xs ∧ ∀ d ∈ descendants_for sm s, d ∉ xs) ∧
    leaf_for sm (leaf_for sm xs) = leaf_for sm xs := by
  have hmem : ∀ ys s, s ∈ leaf_for sm ys ↔
      s ∈ ys ∧ ∀ d ∈ descendants_for sm s, d ∉ ys := by
    intro ys s
    unfold leaf_for
    rw [List.mem_filter]
    simp [List.all_eq_true]
  refine ⟨hmem xs, ?_⟩
  conv_lhs => rw [leaf_for]
  rw [List.filter_eq_self]
  intro s hs
  have hsx : s ∈ xs ∧ ∀ d ∈ descendants_for sm s, d ∉ xs := (hmem xs s).mp hs
  rw [List.all_eq_true]
  intro d hd
  have hdnot : d ∉ leaf_for sm xs := fun hmem2 =>
    hsx.2 d hd ((hmem xs d).mp hmem2).1
  cases hc : (leaf_for sm xs).contains d with
  | false => rfl
  | true => exact absurd (contains_iff_mem.mp hc) hdnot

/-- C5: on a valid registry, least_common_ancestor is symmetric, and on a
pair of equal arguments it returns the nearest ancestor (the head of the
ancestor list) when one exists, else none. -/
theorem lca_symmetric (sm : StateMachine) (rank : String → Nat)
    (h : ValidSM sm rank) (a b s : String) :
    least_common_ancestor sm a b = least_common_ancestor sm b a ∧
    least_common_ancestor sm s s = (ancestors_for sm s).head? := by
  constructor
  · cases hab : least_common_ancestor sm a b with
    | none =>
      cases hba : least_common_ancestor sm b a with
      | none => rfl
      | some y =>
        obtain ⟨hy1, hy2, _⟩ := lca_some_spec h hba
        exact absurd hy1 (lca_none_iff.mp hab y hy2)
    | some x =>
      cases hba : least_common_ancestor sm b a with
      | none =>
        obtain ⟨hx1, hx2, _⟩ := lca_some_spec h hab
        exact absurd hx1 (lca_none_iff.mp hba x hx2)
      | some y =>
        obtain ⟨hx1, hx2, hxmax⟩ := lca_some_spec h hab
        obtain ⟨hy1, hy2, hymax⟩ := lca_some_spec h hba
        have hle1 := hxmax y hy2 hy1
        have hle2 := hymax x hx2 hx1
        have heq : (ancestors_for sm x).length = (ancestors_for sm y).length := by
          omega
        have := pairwise_len_unique (anc_pairwise h a) hx1 hy2 heq
        rw [this]
  · cases hanc : ancestors_for sm s with
    | nil =>
      unfold least_common_ancestor
      rw [hanc]
      rfl
    | cons p rest =>
      unfold least_common_ancestor
      rw [hanc]
      rw [List.find?_cons_of_pos _ (contains_iff_mem.mpr (List.mem_cons_self _ _))]
      rfl

/-! ### A concrete machine (the scenario of the spec, section 8): compound
state A with initial child A1, simple children A1 and A2. -/

/-- StateMachine("M", "A") as built by the constructor: empty maps. -/
def M0 : StateMachine :=
  { name := "M", initial := "A", execute := none, states := [],
    transitions := [], parent := [], children := [] }

/-- After register_state(CompoundState("A", "A1"), None). -/
def M1 : StateMachine :=
  (register_state M0 (.compound "A" "A1" [] [] none none) none).2

/-- After register_state(BasicState("A1"), "A"). -/
def M2 : StateMachine :=
  (register_state M1 (.basic "A1" [] none none) (some "A")).2

/-- After register_state(BasicState("A2"), "A"). -/
def M : StateMachine :=
  (register_state M2 (.basic "A2" [] none none) (some "A")).2

/-- A rank function witnessing the acyclicity of M. -/
def rankM : String → Nat := fun s => if s = "A" then 0 else 1

/-- Sanity: the spec's section 8 scenario values hold on M. -/
theorem scenario_M :
    ValidSM M rankM ∧
    ancestors_for M "A1" = ["A"] ∧
    descendants_for M "A" = ["A1", "A2"] ∧
    least_common_ancestor M "A1" "A2" = some "A" ∧
    depth_of M (some "A1") = 2 := by decide

/-! ### Witnesses for the query-layer claims -/

/-- Witness for C1: the validity hypothesis holds on M and the theorem
applies at the registered pair (A1, A2). -/
theorem lca_correct_witness :
    ValidSM M rankM ∧
    (least_common_ancestor M "A1" "A2" = none ↔
      ∀ y ∈ ancestors_for M "A1", y ∉ ancestors_for M "A2") :=
  ⟨by decide, (lca_correct M rankM (by decide) "A1" "A2").2⟩

/-- Witness for C3: the hypotheses hold on M at the registered state A and
the theorem applies. -/
theorem descendants_for_correct_witness :
    (ValidSM M rankM ∧ (dictGet M.states "A").isSome) ∧
    (descendants_for M "A").Nodup ∧ "A" ∉ descendants_for M "A" :=
  ⟨⟨by decide, by decide⟩,
   (descendants_for_correct M rankM (by decide) "A" (by decide)).2.2.1,
   (descendants_for_correct M rankM (by decide) "A" (by decide)).2.2.2.1⟩

/-- Witness for C5: the validity hypothesis holds on M and the theorem
applies at A1, A2. -/
theorem lca_symmetric_witness :
    ValidSM M rankM ∧
    least_common_ancestor M "A1" "A2" = least_common_ancestor M "A2" "A1" ∧
    least_common_ancestor M "A1" "A1" = (ancestors_for M "A1").head? :=
  ⟨by decide, (lca_symmetric M rankM (by decide) "A1" "A2" "A1").1,
   (lca_symmetric M rankM (by decide) "A1" "A2" "A1").2⟩

/-! ### Claim C6: Transition construction -/

/-- C6: constructing a Transition with both to_state and event absent
fails (the ValueError the spec names InvalidTransitionError); with at
least one of them present, construction succeeds, stores the arguments
verbatim and performs no other validation. -/
theorem transition_make_correct (f : String) (t : Option String)
    (ev : Option Event) (c a : Option String) :
    Transition.make f none none c a = .error .valueError ∧
    (t ≠ none ∨ ev ≠ none →
      Transition.make f t ev c a =
        .ok { from_state := f, to_state := t, event := ev,
              condition := c, action := a }) := by
  constructor
  · simp [Transition.make]
  · intro h
    unfold Transition.make
    rw [if_neg]
    intro hcon
    rcases h with h | h
    · exact h hcon.1
    · exact h hcon.2

/-- Witness for C6: a target-only transition is constructed successfully. -/
theorem transition_make_witness :
    ((some "t" : Option String) ≠ none ∨ (none : Option Event) ≠ none) ∧
    Transition.make "s" (some "t") none none none =
      .ok { from_state := "s", to_state := some "t", event := none,
            condition := none, action := none } :=
  ⟨Or.inl (by decide),
   (transition_make_correct "s" (some "t") none none none).2 (Or.inl (by decide))⟩

/-! ### Claims C7 and C8: registration -/

/-- dictSet then dictGet at the written key yields the written value. -/
theorem dictGet_dictSet_self {κ α : Type} [BEq κ] [LawfulBEq κ]
    (l : List (κ × α)) (k : κ) (v : α) : dictGet (dictSet l k v) k = some v := by
  induction l with
  | nil => simp [dictSet, dictGet]
  | cons e rest ih =>
    by_cases hk : e.1 == k
    · rw [dictSet, if_pos hk, dictGet, if_pos (by simp)]
    · rw [dictSet, if_neg hk, dictGet, if_neg hk]
      exact ih

/-- dictSet at one key leaves lookups at other keys unchanged. -/
theorem dictGet_dictSet_ne {κ α : Type} [BEq κ] [LawfulBEq κ]
    (l : List (κ × α)) (k k' : κ) (v : α) (h : ¬(k' = k)) :
    dictGet (dictSet l k' v) k = dictGet l k := by
  have hbeq : ¬((k' == k) = true) := by simp [h]
  induction l with
  | nil => simp [dictSet, dictGet, hbeq]
  | cons e rest ih =>
    by_cases hk : (e.1 == k') = true
    · have he : e.1 = k' := eq_of_beq hk
      rw [dictSet, if_pos hk, dictGet, if_neg hbeq, dictGet,
        if_neg (by rw [he]; exact hbeq)]
    · rw [dictSet, if_neg hk]
      by_cases hek : (e.1 == k) = true
      · rw [dictGet, if_pos hek, dictGet, if_pos hek]
      · rw [dictGet, if_neg hek, dictGet, if_neg hek, ih]

/-- C7 (amended): register_transition appends the transition to the
machine's transition list before looking up the source state, so the
failure on an unregistered from_state (KeyError, the spec's
StateNotFoundError) leaves the transition list grown by one, with the
state map untouched; when from_state is registered to a transition-owning
state, the transition is appended both to the machine's list and to the
source state's own list. -/
theorem register_transition_behavior (sm : StateMachine) (t : Transition) :
    (dictGet sm.states t.from_state = none →
      register_transition sm t =
        (some .keyError, { sm with transitions := sm.transitions ++ [t] })) ∧
    (∀ st st', dictGet sm.states t.from_state = some st →
      st.add_transition t = some st' →
      register_transition sm t =
        (none, { sm with transitions := sm.transitions ++ [t],
                         states := dictSet sm.states t.from_state st' })) := by
  constructor
  · intro h
    simp [register_transition, h]
  · intro st st' h hadd
    simp [register_transition, h, hadd]

/-- A transition whose source name X is not registered on M. -/
def tX : Transition :=
  { from_state := "X", to_state := some "A1", event := none,
    condition := none, action := none }

/-- Witness for C7's amended statement, at the unregistered name X on M. -/
theorem register_transition_behavior_witness :
    dictGet M.states "X" = none ∧
    register_transition M tX =
      (some .keyError, { M with transitions := M.transitions ++ [tX] }) :=
  ⟨by decide, (register_transition_behavior M tX).1 (by decide)⟩

/-- C7 counterexample: on M, registering a transition from the
unregistered name X fails, yet the machine's transition list has grown by
that transition — the registry is not left unchanged on failure. -/
theorem register_transition_partial_mutation :
    (register_transition M tX).1 = some PyError.keyError ∧
    (register_transition M tX).2.transitions ≠ M.transitions := by
  decide

/-- C8 (amended): register_state performs no duplicate check: whatever the
prior content of the state map, the binding for the new state's name is
unconditionally replaced by the new state (stated for a state not
registered as its own parent, in which case the binding is the new state
with the name appended to its children). -/
theorem register_state_replaces (sm : StateMachine) (st : State)
    (parent : Option String) (h : parent ≠ some st.name) :
    dictGet (register_state sm st parent).2.states st.name = some st := by
  cases parent with
  | none =>
    show dictGet (dictSet sm.states st.name st) st.name = some st
    exact dictGet_dictSet_self _ _ _
  | some p =>
    have hp : ¬(p = st.name) := fun he => h (by rw [he])
    unfold register_state
    simp only
    cases hlook : dictGet (dictSet sm.states st.name st) p with
    | none =>
      simp only [hlook]
      exact dictGet_dictSet_self _ _ _
    | some pstate =>
      cases hadd : pstate.add_child st.name with
      | none =>
        simp only [hlook, hadd]
        exact dictGet_dictSet_self _ _ _
      | some pstate1 =>
        simp only [hlook, hadd]
        rw [dictGet_dictSet_ne _ _ _ _ hp]
        exact dictGet_dictSet_self _ _ _

/-- Witness for C8's amended statement: re-registering the name A on M. -/
theorem register_state_replaces_witness :
    (none : Option String) ≠ some (State.final "A" none none).name ∧
    dictGet (register_state M (State.final "A" none none) none).2.states
        (State.final "A" none none).name = some (State.final "A" none none) :=
  ⟨by decide, register_state_replaces M (State.final "A" none none) none (by decide)⟩

/-- C8 counterexample: re-registering the already-registered name A on M
raises no error (in particular no duplicate-name error) and silently
replaces the previously registered compound state. -/
theorem register_state_duplicate_replaces :
    (register_state M (State.final "A" none none) none).1 = none ∧
    dictGet (register_state M (State.final "A" none none) none).2.states "A" =
      some (State.final "A" none none) ∧
    dictGet (register_state M (State.final "A" none none) none).2.states "A" ≠
      dictGet M.states "A" := by decide

/-! ### Claim C9: memoization across mutation -/

/-- The lru_cache attached to descendants_for, as held by one live machine
object: cached results keyed by the argument. The source never clears it. -/
structure CachedSM where
  sm : StateMachine
  descCache : List (String × List String)

/-- descendants_for through the cache: answer from the cache when the
argument was seen before, otherwise compute once and memoize. -/
def descendants_for_cached (c : CachedSM) (s : String) :
    List String × CachedSM :=
  match dictGet c.descCache s with
  | some v => (v, c)
  | none =>
    (descendants_for c.sm s,
     { c with descCache := dictSet c.descCache s (descendants_for c.sm s) })

/-- register_state on a cached machine: mutates the registry and keeps all
cached query results, exactly as the source does (nothing invalidates the
lru_cache). -/
def register_state_cached (c : CachedSM) (st : State) (parent : Option String) :
    Option PyError × CachedSM :=
  (( register_state c.sm st parent).1,
   { c with sm := (register_state c.sm st parent).2 })

/-- Machine with the compound state A registered and an empty cache. -/
def C9start : CachedSM := { sm := M1, descCache := [] }

/-- After querying descendants_for("A") once (caching the result []). -/
def C9queried : CachedSM := (descendants_for_cached C9start "A").2

/-- After then registering a new basic state C as a child of A. -/
def C9mutated : CachedSM :=
  (register_state_cached C9queried (State.basic "C" [] none none) (some "A")).2

/-- C9: the source allows registration after a query and never invalidates
its caches, so a query after a mutation can return a stale result: after
caching descendants_for("A") = [] and then registering the child C of A,
the cached query still answers [] although the post-mutation structure has
descendants_for("A") = ["C"]. -/
theorem cached_query_stale :
    (descendants_for_cached C9mutated "A").1 = [] ∧
    descendants_for C9mutated.sm "A" = ["C"] ∧
    (descendants_for_cached C9mutated "A").1 ≠ descendants_for C9mutated.sm "A" := by
  decide

/-! ### Claim C10: the dictionary projection

to_dict builds nested ordered dicts. Two aliasing facts of the source
matter: the top-level dict's states entry IS the machine's own children
list (d['states'] = self.children, no copy), and each composite state's
dict's states entry IS that state's children list
(CompositeStateMixin.to_dict returns the list itself). The expansion
worklist then assigns statelist[i] = ... into those very lists, mutating
the registry. We model the aliased mutable lists as a heap keyed by their
owner (none for the machine's top-level list, some name for the children
list of the state registered under that name) and dict values referring
to them by owner. -/

/-- A value inside a produced dict: a string, a bool, a reference to an
aliased mutable children list, an inline (never aliased) list, or a
nested dict. -/
inductive DVal where
  | s (v : String)
  | b (v : Bool)
  | ref (owner : Option String)
  | list (l : List DVal)
  | dict (l : List (String × DVal))

/-- True for entries that are still plain name strings. -/
def DVal.isStr : DVal → Bool
  | .s _ => true
  | _ => false

/-- Python truthiness of an optional string (None and the empty string are
falsy), as used by the conditional fields of the to_dict methods. -/
def optTruthy : Option String → Bool
  | none => false
  | some v => v != ""

/-- Event.to_dict. -/
def Event.to_dict (e : Event) : List (String × DVal) :=
  [("name", DVal.s e.name)]

/-- ActionStateMixin.to_dict: on_entry / on_exit only when truthy. -/
def actionsToDict (on_entry on_exit : Option String) : List (String × DVal) :=
  (if optTruthy on_entry then [("on_entry", DVal.s (on_entry.getD ""))] else []) ++
  (if optTruthy on_exit then [("on_exit", DVal.s (on_exit.getD ""))] else [])

/-- Transition.to_dict: target unless internal, event unless eventless,
condition and action only when truthy. -/
def Transition.to_dict (t : Transition) : List (String × DVal) :=
  (match t.to_state with
   | some v => [("target", DVal.s v)]
   | none => []) ++
  (match t.event with
   | some e => [("event", DVal.dict (Event.to_dict e))]
   | none => []) ++
  (if optTruthy t.condition then [("condition", DVal.s (t.condition.getD ""))] else []) ++
  (if optTruthy t.action then [("action", DVal.s (t.action.getD ""))] else [])

/-- TransitionStateMixin.to_dict: the transitions key only when the list
is non-empty (a fresh list of dicts, never aliased by the registry). -/
def transitionsToDict (ts : List Transition) : List (String × DVal) :=
  if 0 < ts.length then
    [("transitions", DVal.list (ts.map (fun t => DVal.dict (Transition.to_dict t))))]
  else []

/-- The to_dict method of each state class. The states entry of a
composite state is the reference to that state's own (aliased, mutable)
children list. -/
def State.to_dict : State → List (String × DVal)
  | .basic n ts oe ox =>
      [("name", DVal.s n)] ++ actionsToDict oe ox ++ transitionsToDict ts
  | .compound n i ts _ oe ox =>
      [("name", DVal.s n), ("initial", DVal.s i)] ++ actionsToDict oe ox ++
        transitionsToDict ts ++ [("states", DVal.ref (some n))]
  | .orthogonal n ts _ oe ox =>
      [("name", DVal.s n), ("orthogonal", DVal.b true)] ++ actionsToDict oe ox ++
        transitionsToDict ts ++ [("states", DVal.ref (some n))]
  | .history n i _ deep =>
      [("name", DVal.s n), ("type", DVal.s "history")] ++
        (if optTruthy i then [("initial", DVal.s (i.getD ""))] else []) ++
        (if deep then [("deep", DVal.b true)] else [])
  | .final n oe ox =>
      [("name", DVal.s n), ("type", DVal.s "final")] ++ actionsToDict oe ox

/-- The heap of aliased mutable lists, keyed by owner. -/
abbrev Heap := List (Option String × List DVal)

/-- The lists as they stand when the expansion loop starts: every children
list still holds plain name strings. -/
def initialHeap (sm : StateMachine) : Heap :=
  (none, sm.children.map DVal.s) ::
    sm.states.filterMap (fun e =>
      match e.2 with
      | .compound _ _ _ cs _ _ => some (some e.1, cs.map DVal.s)
      | .orthogonal _ _ cs _ _ => some (some e.1, cs.map DVal.s)
      | _ => none)

/-- One full pass of the inner for-loop over one aliased statelist: each
name entry is replaced in place by its state's dict, and each replacement
whose dict has a states alias to a currently non-empty list pushes that
list's owner onto the worklist (left to right, as repeated append does).
A non-string entry or an unregistered name would make Python raise; both
are unreachable in the runs modelled here and are left untouched. -/
def expandStep (sm : StateMachine) (heap : Heap) :
    List DVal → List DVal × List (Option String)
  | [] => ([], [])
  | DVal.s name :: rest =>
      let r := expandStep sm heap rest
      (match dictGet sm.states name with
       | some st =>
           let d := State.to_dict st
           let pushed :=
             match dictGet d "states" with
             | some (DVal.ref o) =>
                 match dictGet heap o with
                 | some l => if 0 < l.length then [o] else []
                 | none => []
             | _ => []
           (DVal.dict d :: r.1, pushed ++ r.2)
       | none => (DVal.s name :: r.1, r.2))
  | v :: rest =>
      let r := expandStep sm heap rest
      (v :: r.1, r.2)

/-- The while-loop over statelist_to_expand: Python pops from the end of
the worklist, so the stack's head is the most recently pushed owner and
the owners pushed by one pass land reversed on top. Each iteration
rewrites one aliased list in place. -/
def to_dict_loop (sm : StateMachine) : Nat → List (Option String) → Heap → Heap
  | 0, _, heap => heap
  | _ + 1, [], heap => heap
  | n + 1, o :: stack, heap =>
      let r := expandStep sm heap ((dictGet heap o).getD [])
      to_dict_loop sm n (r.2.reverse ++ stack) (dictSet heap o r.1)

/-- StateMachine.to_dict: the top-level ordered dict (name, initial, the
states alias to the machine's own children list, execute when truthy),
then the in-place expansion of the aliased lists, seeded with that very
list. Returns the produced structure and the final heap — the post-call
content of the machine's and every composite state's children list. -/
def to_dict (sm : StateMachine) : List (String × DVal) × Heap :=
  let d : List (String × DVal) :=
    [("name", DVal.s sm.name), ("initial", DVal.s sm.initial),
     ("states", DVal.ref none)] ++
    (if optTruthy sm.execute then [("execute", DVal.s (sm.execute.getD ""))] else [])
  ([("statemachine", DVal.dict d)],
   to_dict_loop sm (sm.states.length + 2) [none] (initialHeap sm))

/-- C10: to_dict is not a read-only projection. On M, the machine's
top-level children list and state A's children list hold plain name
strings before the call, and after the call both have been rewritten in
place to hold expanded dict objects instead. -/
theorem to_dict_mutates_registry :
    ((M.children.map DVal.s).all DVal.isStr = true ∧
     ((childrenOf M "A").map DVal.s).all DVal.isStr = true) ∧
    (((dictGet (to_dict M).2 none).getD []).all DVal.isStr = false ∧
     ((dictGet (to_dict M).2 (some "A")).getD []).all DVal.isStr = false) := by
  decide

end Pyss
